import Mathlib

/-!
# Verification of the datamon core against its specification

This file gives a shallow embedding of the two core subsystems of the
datamon repository:

* the augmented AVL interval tree of `src/libdatamon/interval_tree.hpp`
  (`IntervalTree<TValue, TKey>` instantiated, as in the library, at
  `TValue = InterceptorFn`, `TKey = uintptr_t`; callbacks are modelled as
  opaque numeric identifiers and addresses as `Nat`), and

* the vectored-exception-handler state machine and the `Datamon`
  constructor of `src/libdatamon/libdatamon.cpp` (OS effects - protection
  changes and callback invocations - are recorded as explicit output
  lists; fallibility of the OS calls is passed in as explicit flags).

Every definition is translated directly from the C++ source; theorems at
the end settle the frozen claims about the specification.
-/

/-- One entry of the interval tree: `IntervalTree::Interval`.  The C++
field `end` is called `endp` here (`end` is a Lean keyword); `value`
models the stored `TValue` (an opaque callback identifier). -/
structure Iv where
  start : Nat
  endp : Nat
  value : Nat
  id : Nat
  deriving DecidableEq, Repr

/-- A tree node / subtree: `IntervalTree::Node` behind a `unique_ptr`
(`leaf` models the null pointer).  Field order of `node`: the interval
list, the stored `height`, the stored `max_end`, left child, right
child. -/
inductive ITree where
  | leaf : ITree
  | node : List Iv → Nat → Nat → ITree → ITree → ITree
  deriving DecidableEq, Repr

/-- `intervals.front()`: the interval lists of live nodes are never
empty, so the default value is never observed. -/
def front (l : List Iv) : Iv := l.headD ⟨0, 0, 0, 0⟩

/-- `IntervalTree::height`: stored height of a subtree, `0` for null. -/
def hgt : ITree → Nat
  | .leaf => 0
  | .node _ h _ _ _ => h

/-- `IntervalTree::max_end(node)`: stored `max_end`, `0` for null. -/
def maxEndT : ITree → Nat
  | .leaf => 0
  | .node _ _ me _ _ => me

/-- The `start` key of the node's `intervals.front()` (junk for null). -/
def keyT : ITree → Nat
  | .leaf => 0
  | .node ivs _ _ _ _ => (front ivs).start

/-- `IntervalTree::get_balance`: stored-height balance factor. -/
def balI : ITree → Int
  | .leaf => 0
  | .node _ _ _ l r => (hgt l : Int) - (hgt r : Int)

/-- The loop of `update_max_end` over the node's own interval list:
starts from `intervals.front().end` and folds `max` over every stored
interval's `end`. -/
def listMaxEnd (ivs : List Iv) : Nat :=
  ivs.foldl (fun m iv => max m iv.endp) (front ivs).endp

/-- `IntervalTree::update_max_end`: the value written into `max_end` -
the max of the node's own interval ends and both children's stored
`max_end` aggregates. -/
def computeMaxEnd (ivs : List Iv) (l r : ITree) : Nat :=
  max (listMaxEnd ivs) (max (maxEndT l) (maxEndT r))

/-- `IntervalTree::rotate_left`.  Exactly as in the source: the two
affected heights are recomputed, `update_max_end` is called only on the
new subtree root, and the demoted node keeps its old `max_end` field. -/
def rotate_left : ITree → ITree
  | .node ivs _ me l (.node rivs _ _ rl rr) =>
    let demoted := ITree.node ivs (max (hgt l) (hgt rl) + 1) me l rl
    ITree.node rivs (max (hgt demoted) (hgt rr) + 1)
      (computeMaxEnd rivs demoted rr) demoted rr
  | t => t

/-- `IntervalTree::rotate_right` (mirror image of `rotate_left`). -/
def rotate_right : ITree → ITree
  | .node ivs _ me (.node livs _ _ ll lr) r =>
    let demoted := ITree.node ivs (max (hgt lr) (hgt r) + 1) me lr r
    ITree.node livs (max (hgt ll) (hgt demoted) + 1)
      (computeMaxEnd livs ll demoted) ll demoted
  | t => t

/-- The common tail of `IntervalTree::insert(node, i)` after the
recursive descent: recompute the height, recompute `max_end`, then apply
the four AVL rotation cases, which are selected from the balance factor
and the position of the inserted key `i.start` relative to the child's
key, in source order (left-left, right-right, left-right, right-left). -/
def insFix (i : Iv) (ivs : List Iv) (l r : ITree) : ITree :=
  if 1 < (hgt l : Int) - (hgt r : Int) ∧ i.start < keyT l then
    rotate_right (.node ivs (1 + max (hgt l) (hgt r)) (computeMaxEnd ivs l r) l r)
  else if (hgt l : Int) - (hgt r : Int) < -1 ∧ keyT r < i.start then
    rotate_left (.node ivs (1 + max (hgt l) (hgt r)) (computeMaxEnd ivs l r) l r)
  else if 1 < (hgt l : Int) - (hgt r : Int) ∧ keyT l < i.start then
    rotate_right (.node ivs (1 + max (hgt l) (hgt r)) (computeMaxEnd ivs l r) (rotate_left l) r)
  else if (hgt l : Int) - (hgt r : Int) < -1 ∧ i.start < keyT r then
    rotate_left (.node ivs (1 + max (hgt l) (hgt r)) (computeMaxEnd ivs l r) l (rotate_right r))
  else
    .node ivs (1 + max (hgt l) (hgt r)) (computeMaxEnd ivs l r) l r

/-- `IntervalTree::insert(std::unique_ptr<Node>, Iv)`: recursive
BST insert by `i.start`; an equal key appends to the node's interval
list (`push_back`); then the common rebalancing tail runs. -/
def insertT (i : Iv) : ITree → ITree
  | .leaf => .node [i] 1 i.endp .leaf .leaf
  | .node ivs _ _ l r =>
    if i.start < (front ivs).start then
      insFix i ivs (insertT i l) r
    else if (front ivs).start < i.start then
      insFix i ivs l (insertT i r)
    else
      insFix i (ivs ++ [i]) l r

/-- `IntervalTree::min_value_node`, composed with `->intervals.front()`:
the front interval of the leftmost node of a subtree. -/
def minNodeFront : ITree → Iv
  | .leaf => ⟨0, 0, 0, 0⟩
  | .node ivs _ _ l _ =>
    match l with
    | .leaf => front ivs
    | .node _ _ _ _ _ => minNodeFront l

/-- The deletion loop over a node's interval list: removes the first
interval whose `id` matches (the C++ loop breaks after one erase). -/
def removeFirstById (ivs : List Iv) (id : Nat) : List Iv :=
  match ivs with
  | [] => []
  | iv :: rest => if iv.id = id then rest else iv :: removeFirstById rest id

/-- The common tail of `IntervalTree::erase(root, key, id)` when the
subtree stays non-null: recompute height and `max_end`, then the four
deletion rebalancing cases, selected from the node's balance factor and
the relevant child's balance factor, in source order. -/
def eraseFix (ivs : List Iv) (l r : ITree) : ITree :=
  if 1 < (hgt l : Int) - (hgt r : Int) ∧ 0 ≤ balI l then
    rotate_right (.node ivs (1 + max (hgt l) (hgt r)) (computeMaxEnd ivs l r) l r)
  else if 1 < (hgt l : Int) - (hgt r : Int) ∧ balI l < 0 then
    rotate_right (.node ivs (1 + max (hgt l) (hgt r)) (computeMaxEnd ivs l r) (rotate_left l) r)
  else if (hgt l : Int) - (hgt r : Int) < -1 ∧ balI r ≤ 0 then
    rotate_left (.node ivs (1 + max (hgt l) (hgt r)) (computeMaxEnd ivs l r) l r)
  else if (hgt l : Int) - (hgt r : Int) < -1 ∧ 0 < balI r then
    rotate_left (.node ivs (1 + max (hgt l) (hgt r)) (computeMaxEnd ivs l r) l (rotate_right r))
  else
    .node ivs (1 + max (hgt l) (hgt r)) (computeMaxEnd ivs l r) l r

/-- `IntervalTree::erase(std::unique_ptr<Node>, TKey, size_t)`.  The
returned `Bool` records whether the side-index entry `id` was dropped
from `id_to_node_` during this call (which in the source happens only in
the multi-interval branch, when an interval with the requested `id` is
found in the node's list).  In the two-children case the source copies
the in-order successor's front interval over the node's front interval
and then recursively erases the successor's key - passing the original
`id` through unchanged. -/
def innerErase : ITree → Nat → Nat → ITree × Bool
  | .leaf, _, _ => (.leaf, false)
  | .node ivs _ _ l r, key, id =>
    if key < (front ivs).start then
      let p := innerErase l key id
      (eraseFix ivs p.1 r, p.2)
    else if (front ivs).start < key then
      let p := innerErase r key id
      (eraseFix ivs l p.1, p.2)
    else if 1 < ivs.length then
      (eraseFix (removeFirstById ivs id) l r, ivs.any (fun iv => iv.id == id))
    else
      match l, r with
      | .leaf, .leaf => (.leaf, false)
      | .node cvs _ _ cl cr, .leaf => (eraseFix cvs cl cr, false)
      | .leaf, .node cvs _ _ cl cr => (eraseFix cvs cl cr, false)
      | .node _ _ _ _ _, .node _ _ _ _ _ =>
        let succ := minNodeFront r
        let p := innerErase r succ.start id
        (eraseFix [succ] l p.1, p.2)

/-- `IntervalTree::query(node, point)`: collect the node's own matching
intervals when `front().start ≤ point`, then descend left when the left
child exists and its `max_end ≥ point`, then descend right when the
right child exists and `front().start ≤ point`; results are concatenated
in that order. -/
def queryT : ITree → Nat → List Iv
  | .leaf, _ => []
  | .node ivs _ _ l r, point =>
    (if (front ivs).start ≤ point then ivs.filter (fun iv => point ≤ iv.endp) else [])
      ++ (if l ≠ ITree.leaf ∧ point ≤ maxEndT l then queryT l point else [])
      ++ (if r ≠ ITree.leaf ∧ (front ivs).start ≤ point then queryT r point else [])

/-- All intervals stored anywhere in a subtree (specification helper,
used to express "the set of intervals currently in the registry"). -/
def allIntervals : ITree → List Iv
  | .leaf => []
  | .node ivs _ _ l r => ivs ++ allIntervals l ++ allIntervals r

/-- `std::unordered_map` store: insert-or-assign on an association
list. -/
def mapInsert (m : List (Nat × Iv)) (k : Nat) (v : Iv) :
    List (Nat × Iv) :=
  match m with
  | [] => [(k, v)]
  | (k', v') :: rest =>
    if k' = k then (k, v) :: rest else (k', v') :: mapInsert rest k v

/-- `std::unordered_map` lookup. -/
def mapLookup (m : List (Nat × Iv)) (k : Nat) : Option Iv :=
  match m with
  | [] => none
  | (k', v) :: rest => if k' = k then some v else mapLookup rest k

/-- `std::unordered_map` erase. -/
def mapErase (m : List (Nat × Iv)) (k : Nat) : List (Nat × Iv) :=
  match m with
  | [] => []
  | (k', v) :: rest => if k' = k then rest else (k', v) :: mapErase rest k

/-- The state of one `IntervalTree` object: the root pointer, the
`next_id_` counter and the `id_to_node_` side index. -/
structure TreeState where
  root : ITree
  next_id : Nat
  id_to_node : List (Nat × Iv)
  deriving DecidableEq, Repr

/-- A freshly constructed `IntervalTree`. -/
def emptyState : TreeState := ⟨.leaf, 0, []⟩

/-- `IntervalTree::insert(Iv)`: assign the next unique id, record
`id → interval` in the side index, insert into the tree, return the
id. -/
def TreeState.insertIv (s : TreeState) (start endp value : Nat) :
    Nat × TreeState :=
  let i : Iv := ⟨start, endp, value, s.next_id⟩
  (i.id,
   { root := insertT i s.root,
     next_id := s.next_id + 1,
     id_to_node := mapInsert s.id_to_node i.id i })

/-- `IntervalTree::erase(size_t id)`: if the side index knows the id,
look up its `start` key and run the recursive erase; the side-index
entry is dropped exactly when the recursive erase dropped it. -/
def TreeState.eraseId (s : TreeState) (id : Nat) : TreeState :=
  match mapLookup s.id_to_node id with
  | none => s
  | some iv =>
    let p := innerErase s.root iv.start id
    { s with
      root := p.1,
      id_to_node := if p.2 then mapErase s.id_to_node id else s.id_to_node }

/-- `IntervalTree::empty`. -/
def TreeState.emptyQ (s : TreeState) : Bool := s.root == ITree.leaf

/-- `IntervalTree::query(point)` at the registry level. -/
def TreeState.query (s : TreeState) (point : Nat) : List Iv :=
  queryT s.root point

/-- One public registry operation (the only mutation paths of the
tree). -/
inductive RegOp where
  | ins (start endp value : Nat) : RegOp
  | del (id : Nat) : RegOp

/-- Apply one registry operation. -/
def applyOp (s : TreeState) : RegOp → TreeState
  | .ins a b v => (s.insertIv a b v).2
  | .del id => s.eraseId id

/-- Run a sequence of registry operations from the empty registry. -/
def runOps (ops : List RegOp) : TreeState := ops.foldl applyOp emptyState

/-- Exception category of a fault record: `STATUS_GUARD_PAGE_VIOLATION`,
`STATUS_SINGLE_STEP`, or anything else. -/
inductive ExCode where
  | guardViolation : ExCode
  | singleStep : ExCode
  | other : ExCode
  deriving DecidableEq, Repr

/-- The parts of `EXCEPTION_POINTERS` the handler reads: the exception
code, the faulting instruction pointer (`Rip`/`Eip`), the read/write
discriminator `ExceptionInformation[0]` and the faulting data address
`ExceptionInformation[1]`. -/
structure FaultRecord where
  code : ExCode
  ip : Nat
  infoRW : Nat
  dataAddr : Nat
  deriving DecidableEq, Repr

/-- The per-thread trap state: the `thread_local uintptr_t
last_data_address` of the handler.  The thread is "Armed" exactly when
this is nonzero (the source tests `last_data_address &&`). -/
structure ThreadState where
  lastDataAddress : Nat
  deriving DecidableEq, Repr

/-- The handler's return value: `EXCEPTION_CONTINUE_EXECUTION` or
`EXCEPTION_CONTINUE_SEARCH`. -/
inductive Disposition where
  | continueExecution : Disposition
  | continueSearch : Disposition
  deriving DecidableEq, Repr

/-- Everything observable about one run of the vectored exception
handler: the disposition, the updated thread-local state, the callback
invocations made (callback identifier, accessing instruction address,
read flag, data address - in invocation order), the `protect_memory`
calls made (address, size, whether `PAGE_GUARD` is being set), and
whether the handler set the single-step flag (`EFlags |= 0x100`). -/
structure HandlerResult where
  disp : Disposition
  thread : ThreadState
  callbacks : List (Nat × Nat × Bool × Nat)
  protectOps : List (Nat × Nat × Bool)
  singleStepFlagSet : Bool
  deriving DecidableEq, Repr

/-- The vectored exception handler `handler` of `libdatamon.cpp`.  The
registry is only read (via `empty()` and `query`), never written, so the
result carries no tree: the handler changes no registry state by
construction. -/
def handler (ts : TreeState) (th : ThreadState) (r : FaultRecord) :
    HandlerResult :=
  if ts.root = ITree.leaf then
    ⟨.continueSearch, th, [], [], false⟩
  else if r.code = ExCode.guardViolation then
    let read := r.infoRW = 0
    ⟨.continueExecution, ⟨r.dataAddr⟩,
     (queryT ts.root r.dataAddr).map (fun iv => (iv.value, r.ip, read, r.dataAddr)),
     [], true⟩
  else if th.lastDataAddress ≠ 0 ∧ r.code = ExCode.singleStep then
    ⟨.continueExecution, ⟨0⟩, [], [(th.lastDataAddress, 1, true)], false⟩
  else
    ⟨.continueSearch, th, [], [], false⟩

/-- The process-wide engine state of `libdatamon.cpp`: `veh_refcount`,
`veh_handle` (modelled as "installed or not") and the global interval
tree. -/
structure EngineState where
  veh_refcount : Nat
  veh_handle : Bool
  tree : TreeState
  deriving DecidableEq, Repr

/-- The `Datamon::Datamon(address, size, interceptor)` constructor.
`vehOk` models whether `AddVectoredExceptionHandler` succeeds, and
`protectOk` whether the final `protect_memory` call succeeds; a C++
exception is modelled as a `none` first component, paired with the
global state as it is left when the exception propagates (a throwing
constructor runs no destructor). -/
def datamonCtor (s : EngineState) (address size interceptor : Nat)
    (vehOk protectOk : Bool) : Option Nat × EngineState :=
  if s.veh_refcount = 0 ∧ vehOk = false then
    (none, { s with veh_handle := false })
  else
    let s1 := if s.veh_refcount = 0 then { s with veh_handle := true } else s
    let s2 := { s1 with veh_refcount := s1.veh_refcount + 1 }
    let p := s2.tree.insertIv address (address + size) interceptor
    let s3 := { s2 with tree := p.2 }
    if protectOk then (some p.1, s3) else (none, s3)

/-- The stored `height` fields are consistent: at every node the field
equals one plus the max of the children's stored heights (this is what
`insert` and `erase` recompute on every path they touch). -/
def HOk : ITree → Prop
  | .leaf => True
  | .node _ h _ l r => h = 1 + max (hgt l) (hgt r) ∧ HOk l ∧ HOk r

/-- AVL balance on stored heights: at every node the stored heights of
the children differ by at most one. -/
def BalS : ITree → Prop
  | .leaf => True
  | .node _ _ _ l r =>
    hgt l ≤ hgt r + 1 ∧ hgt r ≤ hgt l + 1 ∧ BalS l ∧ BalS r

/-- The true (structural) height of a subtree. -/
def realHeight : ITree → Nat
  | .leaf => 0
  | .node _ _ _ l r => 1 + max (realHeight l) (realHeight r)

/-- AVL balance on true heights: at every node, the height of the left
subtree minus the height of the right subtree lies in `{-1, 0, 1}`. -/
def BalancedReal : ITree → Prop
  | .leaf => True
  | .node _ _ _ l r =>
    realHeight l ≤ realHeight r + 1 ∧ realHeight r ≤ realHeight l + 1 ∧
      BalancedReal l ∧ BalancedReal r

/-- The upper-bound form of the `max_end` augmentation invariant: at
every node the stored `max_end` is at least each of the node's own
interval ends and at least both children's stored `max_end`
aggregates. -/
def MEInv : ITree → Prop
  | .leaf => True
  | .node ivs _ me l r =>
    (∀ iv ∈ ivs, iv.endp ≤ me) ∧ maxEndT l ≤ me ∧ maxEndT r ≤ me ∧
      MEInv l ∧ MEInv r

/-- The exact form of the `max_end` invariant, as the specification
states it: at every node the stored `max_end` equals the maximum of the
node's own interval ends and the children's `max_end` aggregates
(decidable, for concrete evaluation). -/
def MEExactB : ITree → Bool
  | .leaf => true
  | .node ivs _ me l r =>
    (me == computeMaxEnd ivs l r) && MEExactB l && MEExactB r

/-- All intervals stored in one node share the node's key (the `start`
of `intervals.front()`). -/
def SameKeys : ITree → Prop
  | .leaf => True
  | .node ivs _ _ l r =>
    (∀ iv ∈ ivs, iv.start = (front ivs).start) ∧ SameKeys l ∧ SameKeys r

theorem foldl_max_init_le (l : List Iv) (a : Nat) :
    a ≤ l.foldl (fun m iv => max m iv.endp) a := by
  induction l generalizing a with
  | nil => simp
  | cons x xs ih =>
    simp only [List.foldl_cons]
    exact le_trans (le_max_left a x.endp) (ih _)

theorem foldl_max_mem_le {l : List Iv} {iv : Iv} (h : iv ∈ l) (a : Nat) :
    iv.endp ≤ l.foldl (fun m iv => max m iv.endp) a := by
  induction l generalizing a with
  | nil => cases h
  | cons x xs ih =>
    simp only [List.foldl_cons]
    rcases List.mem_cons.mp h with rfl | hm
    · exact le_trans (le_max_right a iv.endp) (foldl_max_init_le xs _)
    · exact ih hm _

theorem foldl_max_le {l : List Iv} {m : Nat} {a : Nat} (ha : a ≤ m)
    (h : ∀ iv ∈ l, iv.endp ≤ m) :
    l.foldl (fun acc iv => max acc iv.endp) a ≤ m := by
  induction l generalizing a with
  | nil => simpa using ha
  | cons x xs ih =>
    simp only [List.foldl_cons]
    exact ih (max_le ha (h x (by simp))) (fun iv hiv => h iv (by simp [hiv]))

theorem le_listMaxEnd_of_mem {ivs : List Iv} {iv : Iv} (h : iv ∈ ivs) :
    iv.endp ≤ listMaxEnd ivs :=
  foldl_max_mem_le h _

theorem listMaxEnd_le {ivs : List Iv} {m : Nat}
    (h : ∀ iv ∈ ivs, iv.endp ≤ m) : listMaxEnd ivs ≤ m := by
  cases ivs with
  | nil => simp [listMaxEnd, front]
  | cons x xs =>
    exact foldl_max_le (by simpa [front] using h x (by simp)) h

theorem le_computeMaxEnd_of_mem {ivs : List Iv} {iv : Iv} {l r : ITree}
    (h : iv ∈ ivs) : iv.endp ≤ computeMaxEnd ivs l r :=
  le_trans (le_listMaxEnd_of_mem h) (le_max_left _ _)

theorem maxEndT_left_le_computeMaxEnd (ivs : List Iv) (l r : ITree) :
    maxEndT l ≤ computeMaxEnd ivs l r :=
  le_trans (le_trans (le_max_left _ _) (le_max_right _ _)) (le_refl _)

theorem maxEndT_right_le_computeMaxEnd (ivs : List Iv) (l r : ITree) :
    maxEndT r ≤ computeMaxEnd ivs l r :=
  le_trans (le_max_right _ _) (le_max_right _ _)

theorem rotate_left_me {t : ITree} (h : MEInv t) :
    MEInv (rotate_left t) ∧ maxEndT (rotate_left t) ≤ maxEndT t := by
  match t with
  | .leaf => exact ⟨h, le_refl _⟩
  | .node ivs ht me l .leaf => exact ⟨h, le_refl _⟩
  | .node ivs ht me l (.node rivs rh rme rl rr) =>
    simp only [MEInv, maxEndT] at h
    obtain ⟨hown, hml, hmr, hl, hr⟩ := h
    simp only [MEInv, rotate_left, maxEndT] at hr ⊢
    obtain ⟨rown, rml, rmr, hrl, hrr⟩ := hr
    refine ⟨⟨fun iv hiv => le_computeMaxEnd_of_mem hiv, ?_, ?_,
      ⟨hown, hml, le_trans rml hmr, hl, hrl⟩, hrr⟩, ?_⟩
    · exact maxEndT_left_le_computeMaxEnd rivs
        (ITree.node ivs (max (hgt l) (hgt rl) + 1) me l rl) rr
    · exact maxEndT_right_le_computeMaxEnd rivs
        (ITree.node ivs (max (hgt l) (hgt rl) + 1) me l rl) rr
    · exact max_le (listMaxEnd_le (fun iv hiv => le_trans (rown iv hiv) hmr))
        (max_le (le_refl me) (le_trans rmr hmr))

theorem rotate_right_me {t : ITree} (h : MEInv t) :
    MEInv (rotate_right t) ∧ maxEndT (rotate_right t) ≤ maxEndT t := by
  match t with
  | .leaf => exact ⟨h, le_refl _⟩
  | .node ivs ht me .leaf r => exact ⟨h, le_refl _⟩
  | .node ivs ht me (.node livs lh lme ll lr) r =>
    simp only [MEInv, maxEndT] at h
    obtain ⟨hown, hml, hmr, hl, hr⟩ := h
    simp only [MEInv, rotate_right, maxEndT] at hl ⊢
    obtain ⟨lown, lml, lmr, hll, hlr⟩ := hl
    refine ⟨⟨fun iv hiv => le_computeMaxEnd_of_mem hiv, ?_, ?_, hll,
      ⟨hown, le_trans lmr hml, hmr, hlr, hr⟩⟩, ?_⟩
    · exact maxEndT_left_le_computeMaxEnd livs ll
        (ITree.node ivs (max (hgt lr) (hgt r) + 1) me lr r)
    · exact maxEndT_right_le_computeMaxEnd livs ll
        (ITree.node ivs (max (hgt lr) (hgt r) + 1) me lr r)
    · exact max_le (listMaxEnd_le (fun iv hiv => le_trans (lown iv hiv) hml))
        (max_le (le_trans lml hml) (le_refl me))

theorem insFix_me {i : Iv} {ivs : List Iv} {l r : ITree}
    (hl : MEInv l) (hr : MEInv r) : MEInv (insFix i ivs l r) := by
  have base : ∀ l' : ITree, MEInv l' → maxEndT l' ≤ computeMaxEnd ivs l r →
      MEInv (ITree.node ivs (1 + max (hgt l) (hgt r)) (computeMaxEnd ivs l r) l' r) := by
    intro l' hl' hle
    exact ⟨fun iv hiv => le_computeMaxEnd_of_mem hiv, hle,
      maxEndT_right_le_computeMaxEnd _ _ _, hl', hr⟩
  have baseR : ∀ r' : ITree, MEInv r' → maxEndT r' ≤ computeMaxEnd ivs l r →
      MEInv (ITree.node ivs (1 + max (hgt l) (hgt r)) (computeMaxEnd ivs l r) l r') := by
    intro r' hr' hle
    exact ⟨fun iv hiv => le_computeMaxEnd_of_mem hiv,
      maxEndT_left_le_computeMaxEnd _ _ _, hle, hl, hr'⟩
  unfold insFix
  split_ifs
  · exact (rotate_right_me (base l hl (maxEndT_left_le_computeMaxEnd _ _ _))).1
  · exact (rotate_left_me (base l hl (maxEndT_left_le_computeMaxEnd _ _ _))).1
  · exact (rotate_right_me (base (rotate_left l) (rotate_left_me hl).1
      (le_trans (rotate_left_me hl).2 (maxEndT_left_le_computeMaxEnd _ _ _)))).1
  · exact (rotate_left_me (baseR (rotate_right r) (rotate_right_me hr).1
      (le_trans (rotate_right_me hr).2 (maxEndT_right_le_computeMaxEnd _ _ _)))).1
  · exact base l hl (maxEndT_left_le_computeMaxEnd _ _ _)

theorem eraseFix_me {ivs : List Iv} {l r : ITree}
    (hl : MEInv l) (hr : MEInv r) : MEInv (eraseFix ivs l r) := by
  have base : ∀ l' : ITree, MEInv l' → maxEndT l' ≤ computeMaxEnd ivs l r →
      MEInv (ITree.node ivs (1 + max (hgt l) (hgt r)) (computeMaxEnd ivs l r) l' r) := by
    intro l' hl' hle
    exact ⟨fun iv hiv => le_computeMaxEnd_of_mem hiv, hle,
      maxEndT_right_le_computeMaxEnd _ _ _, hl', hr⟩
  have baseR : ∀ r' : ITree, MEInv r' → maxEndT r' ≤ computeMaxEnd ivs l r →
      MEInv (ITree.node ivs (1 + max (hgt l) (hgt r)) (computeMaxEnd ivs l r) l r') := by
    intro r' hr' hle
    exact ⟨fun iv hiv => le_computeMaxEnd_of_mem hiv,
      maxEndT_left_le_computeMaxEnd _ _ _, hle, hl, hr'⟩
  unfold eraseFix
  split_ifs
  · exact (rotate_right_me (base l hl (maxEndT_left_le_computeMaxEnd _ _ _))).1
  · exact (rotate_right_me (base (rotate_left l) (rotate_left_me hl).1
      (le_trans (rotate_left_me hl).2 (maxEndT_left_le_computeMaxEnd _ _ _)))).1
  · exact (rotate_left_me (base l hl (maxEndT_left_le_computeMaxEnd _ _ _))).1
  · exact (rotate_left_me (baseR (rotate_right r) (rotate_right_me hr).1
      (le_trans (rotate_right_me hr).2 (maxEndT_right_le_computeMaxEnd _ _ _)))).1
  · exact base l hl (maxEndT_left_le_computeMaxEnd _ _ _)

theorem insertT_me (i : Iv) (t : ITree) (h : MEInv t) : MEInv (insertT i t) := by
  induction t with
  | leaf =>
    refine ⟨fun iv hiv => ?_, by simp [maxEndT], by simp [maxEndT], trivial, trivial⟩
    simp only [List.mem_singleton] at hiv
    simp [hiv]
  | node ivs ht me l r ihl ihr =>
    simp only [MEInv] at h
    obtain ⟨hown, hml, hmr, hl, hr⟩ := h
    simp only [insertT]
    split_ifs
    · exact insFix_me (ihl hl) hr
    · exact insFix_me hl (ihr hr)
    · exact insFix_me hl hr

theorem innerErase_me (t : ITree) : ∀ key id : Nat, MEInv t →
    MEInv (innerErase t key id).1 := by
  induction t with
  | leaf => intro key id h; simpa [innerErase] using h
  | node ivs ht me l r ihl ihr =>
    intro key id h
    simp only [MEInv] at h
    obtain ⟨hown, hml, hmr, hl, hr⟩ := h
    simp only [innerErase]
    split_ifs
    · exact eraseFix_me (ihl key id hl) hr
    · exact eraseFix_me hl (ihr key id hr)
    · exact eraseFix_me hl hr
    · match l, r with
      | .leaf, .leaf => trivial
      | .node cvs chh cme cl cr, .leaf =>
        simp only [MEInv] at hl
        exact eraseFix_me hl.2.2.2.1 hl.2.2.2.2
      | .leaf, .node cvs chh cme cl cr =>
        simp only [MEInv] at hr
        exact eraseFix_me hr.2.2.2.1 hr.2.2.2.2
      | .node lvs lhh lme lll llr, .node rvs rhh rme rrl rrr =>
        exact eraseFix_me hl (ihr _ id hr)

theorem all_eq_front_start {ivs : List Iv} {c : Nat}
    (h : ∀ iv ∈ ivs, iv.start = c) : ∀ iv ∈ ivs, iv.start = (front ivs).start := by
  cases ivs with
  | nil => intro iv hiv; cases hiv
  | cons x xs =>
    intro iv hiv
    rw [h iv hiv, front, List.headD_cons, h x (by simp)]

theorem rotate_left_sk {t : ITree} (h : SameKeys t) : SameKeys (rotate_left t) := by
  match t with
  | .leaf => exact h
  | .node ivs ht me l .leaf => exact h
  | .node ivs ht me l (.node rivs rh rme rl rr) =>
    simp only [SameKeys] at h
    obtain ⟨hown, hl, hrown, hrl, hrr⟩ := h
    simp only [rotate_left, SameKeys]
    exact ⟨hrown, ⟨hown, hl, hrl⟩, hrr⟩

theorem rotate_right_sk {t : ITree} (h : SameKeys t) : SameKeys (rotate_right t) := by
  match t with
  | .leaf => exact h
  | .node ivs ht me .leaf r => exact h
  | .node ivs ht me (.node livs lh lme ll lr) r =>
    simp only [SameKeys] at h
    obtain ⟨hown, ⟨hlown, hll, hlr⟩, hr⟩ := h
    simp only [rotate_right, SameKeys]
    exact ⟨hlown, hll, hown, hlr, hr⟩

theorem insFix_sk {i : Iv} {ivs : List Iv} {l r : ITree}
    (hown : ∀ iv ∈ ivs, iv.start = (front ivs).start)
    (hl : SameKeys l) (hr : SameKeys r) : SameKeys (insFix i ivs l r) := by
  unfold insFix
  split_ifs
  · exact rotate_right_sk ⟨hown, hl, hr⟩
  · exact rotate_left_sk ⟨hown, hl, hr⟩
  · exact rotate_right_sk ⟨hown, rotate_left_sk hl, hr⟩
  · exact rotate_left_sk ⟨hown, hl, rotate_right_sk hr⟩
  · exact ⟨hown, hl, hr⟩

theorem eraseFix_sk {ivs : List Iv} {l r : ITree}
    (hown : ∀ iv ∈ ivs, iv.start = (front ivs).start)
    (hl : SameKeys l) (hr : SameKeys r) : SameKeys (eraseFix ivs l r) := by
  unfold eraseFix
  split_ifs
  · exact rotate_right_sk ⟨hown, hl, hr⟩
  · exact rotate_right_sk ⟨hown, rotate_left_sk hl, hr⟩
  · exact rotate_left_sk ⟨hown, hl, hr⟩
  · exact rotate_left_sk ⟨hown, hl, rotate_right_sk hr⟩
  · exact ⟨hown, hl, hr⟩

theorem insertT_sk (i : Iv) (t : ITree) (h : SameKeys t) : SameKeys (insertT i t) := by
  induction t with
  | leaf =>
    refine ⟨fun iv hiv => ?_, trivial, trivial⟩
    simp only [List.mem_singleton] at hiv
    simp [hiv, front]
  | node ivs ht me l r ihl ihr =>
    simp only [SameKeys] at h
    obtain ⟨hown, hl, hr⟩ := h
    simp only [insertT]
    split_ifs with h1 h2
    · exact insFix_sk hown (ihl hl) hr
    · exact insFix_sk hown hl (ihr hr)
    · have hik : i.start = (front ivs).start := le_antisymm (not_lt.mp h2) (not_lt.mp h1)
      refine insFix_sk (all_eq_front_start (c := (front ivs).start) ?_) hl hr
      intro iv hiv
      rcases List.mem_append.mp hiv with hiv | hiv
      · exact hown iv hiv
      · simp only [List.mem_singleton] at hiv
        rw [hiv, hik]

theorem removeFirstById_subset {ivs : List Iv} {id : Nat} {iv : Iv}
    (h : iv ∈ removeFirstById ivs id) : iv ∈ ivs := by
  induction ivs with
  | nil => simp [removeFirstById] at h
  | cons x xs ih =>
    simp only [removeFirstById] at h
    split_ifs at h
    · exact List.mem_cons_of_mem _ h
    · rcases List.mem_cons.mp h with rfl | h
      · exact List.mem_cons_self _ _
      · exact List.mem_cons_of_mem _ (ih h)

theorem innerErase_sk (t : ITree) : ∀ key id : Nat, SameKeys t →
    SameKeys (innerErase t key id).1 := by
  induction t with
  | leaf => intro key id h; simpa [innerErase] using h
  | node ivs ht me l r ihl ihr =>
    intro key id h
    simp only [SameKeys] at h
    obtain ⟨hown, hl, hr⟩ := h
    simp only [innerErase]
    split_ifs
    · exact eraseFix_sk hown (ihl key id hl) hr
    · exact eraseFix_sk hown hl (ihr key id hr)
    · refine eraseFix_sk (all_eq_front_start (c := (front ivs).start) ?_) hl hr
      exact fun iv hiv => hown iv (removeFirstById_subset hiv)
    · match l, r with
      | .leaf, .leaf => trivial
      | .node cvs chh cme cl cr, .leaf =>
        simp only [SameKeys] at hl
        exact eraseFix_sk hl.1 hl.2.1 hl.2.2
      | .leaf, .node cvs chh cme cl cr =>
        simp only [SameKeys] at hr
        exact eraseFix_sk hr.1 hr.2.1 hr.2.2
      | .node lvs lhh lme lll llr, .node rvs rhh rme rrl rrr =>
        refine eraseFix_sk ?_ hl (ihr _ id hr)
        intro iv hiv
        simp only [List.mem_singleton] at hiv
        simp [hiv, front]

theorem query_mem_all {t : ITree} {p : Nat} {iv : Iv}
    (h : iv ∈ queryT t p) : iv ∈ allIntervals t := by
  induction t with
  | leaf => simp [queryT] at h
  | node ivs ht me l r ihl ihr =>
    simp only [queryT, List.mem_append] at h
    simp only [allIntervals, List.mem_append]
    rcases h with (h | h) | h
    · split_ifs at h
      · exact Or.inl (Or.inl (List.mem_of_mem_filter h))
      · cases h
    · split_ifs at h
      · exact Or.inl (Or.inr (ihl h))
      · cases h
    · split_ifs at h
      · exact Or.inr (ihr h)
      · cases h

theorem query_mem_contains {t : ITree} {p : Nat} {iv : Iv}
    (hs : SameKeys t) (h : iv ∈ queryT t p) :
    iv.start ≤ p ∧ p ≤ iv.endp := by
  induction t with
  | leaf => simp [queryT] at h
  | node ivs ht me l r ihl ihr =>
    simp only [SameKeys] at hs
    obtain ⟨hown, hl, hr⟩ := hs
    simp only [queryT, List.mem_append] at h
    rcases h with (h | h) | h
    · split_ifs at h with hcond
      · obtain ⟨hmem, hend⟩ := List.mem_filter.mp h
        refine ⟨?_, by simpa using hend⟩
        rw [hown iv hmem]
        exact hcond
      · cases h
    · split_ifs at h
      · exact ihl hl h
      · cases h
    · split_ifs at h
      · exact ihr hr h
      · cases h

theorem query_eq_nil {t : ITree} {p : Nat} (hs : SameKeys t)
    (h : ∀ iv ∈ allIntervals t, ¬(iv.start ≤ p ∧ p ≤ iv.endp)) :
    queryT t p = [] := by
  rcases hq : queryT t p with _ | ⟨iv, rest⟩
  · rfl
  · have hmem : iv ∈ queryT t p := by rw [hq]; exact List.mem_cons_self _ _
    exact absurd (query_mem_contains hs hmem) (h iv (query_mem_all hmem))

theorem foldl_applyOp_sk (ops : List RegOp) :
    ∀ s : TreeState, SameKeys s.root → SameKeys ((ops.foldl applyOp s).root) := by
  induction ops with
  | nil => exact fun s hs => hs
  | cons op rest ih =>
    intro s hs
    refine ih (applyOp s op) ?_
    cases op with
    | ins a b v => exact insertT_sk _ _ hs
    | del id =>
      simp only [applyOp, TreeState.eraseId]
      rcases mapLookup s.id_to_node id with _ | iv
      · exact hs
      · exact innerErase_sk _ _ _ hs

theorem runOps_sk (ops : List RegOp) : SameKeys (runOps ops).root :=
  foldl_applyOp_sk ops emptyState trivial

theorem foldl_applyOp_me (ops : List RegOp) :
    ∀ s : TreeState, MEInv s.root → MEInv ((ops.foldl applyOp s).root) := by
  induction ops with
  | nil => exact fun s hs => hs
  | cons op rest ih =>
    intro s hs
    refine ih (applyOp s op) ?_
    cases op with
    | ins a b v => exact insertT_me _ _ hs
    | del id =>
      simp only [applyOp, TreeState.eraseId]
      rcases mapLookup s.id_to_node id with _ | iv
      · exact hs
      · exact innerErase_me _ _ _ hs

theorem runOps_me_inv (ops : List RegOp) : MEInv (runOps ops).root :=
  foldl_applyOp_me ops emptyState trivial

theorem insFix_eq_bal {i : Iv} {ivs : List Iv} {l r : ITree}
    (h1 : (hgt l : Int) - (hgt r : Int) ≤ 1)
    (h2 : -1 ≤ (hgt l : Int) - (hgt r : Int)) :
    insFix i ivs l r =
      .node ivs (1 + max (hgt l) (hgt r)) (computeMaxEnd ivs l r) l r := by
  have c1 : ¬(1 < (hgt l : Int) - (hgt r : Int) ∧ i.start < keyT l) :=
    fun hc => absurd hc.1 (by omega)
  have c2 : ¬((hgt l : Int) - (hgt r : Int) < -1 ∧ keyT r < i.start) :=
    fun hc => absurd hc.1 (by omega)
  have c3 : ¬(1 < (hgt l : Int) - (hgt r : Int) ∧ keyT l < i.start) :=
    fun hc => absurd hc.1 (by omega)
  have c4 : ¬((hgt l : Int) - (hgt r : Int) < -1 ∧ i.start < keyT r) :=
    fun hc => absurd hc.1 (by omega)
  unfold insFix
  rw [if_neg c1, if_neg c2, if_neg c3, if_neg c4]

theorem insFix_eq_LL {i : Iv} {ivs : List Iv} {l r : ITree}
    (h1 : 1 < (hgt l : Int) - (hgt r : Int)) (h2 : i.start < keyT l) :
    insFix i ivs l r = rotate_right
      (.node ivs (1 + max (hgt l) (hgt r)) (computeMaxEnd ivs l r) l r) := by
  unfold insFix
  rw [if_pos ⟨h1, h2⟩]

theorem insFix_eq_RR {i : Iv} {ivs : List Iv} {l r : ITree}
    (h1 : (hgt l : Int) - (hgt r : Int) < -1) (h2 : keyT r < i.start) :
    insFix i ivs l r = rotate_left
      (.node ivs (1 + max (hgt l) (hgt r)) (computeMaxEnd ivs l r) l r) := by
  have c1 : ¬(1 < (hgt l : Int) - (hgt r : Int) ∧ i.start < keyT l) :=
    fun hc => absurd hc.1 (by omega)
  unfold insFix
  rw [if_neg c1, if_pos ⟨h1, h2⟩]

theorem insFix_eq_LR {i : Iv} {ivs : List Iv} {l r : ITree}
    (h1 : 1 < (hgt l : Int) - (hgt r : Int)) (h2 : keyT l < i.start) :
    insFix i ivs l r = rotate_right
      (.node ivs (1 + max (hgt l) (hgt r)) (computeMaxEnd ivs l r) (rotate_left l) r) := by
  have c1 : ¬(1 < (hgt l : Int) - (hgt r : Int) ∧ i.start < keyT l) :=
    fun hc => absurd h2 (by omega)
  have c2 : ¬((hgt l : Int) - (hgt r : Int) < -1 ∧ keyT r < i.start) :=
    fun hc => absurd hc.1 (by omega)
  unfold insFix
  rw [if_neg c1, if_neg c2, if_pos ⟨h1, h2⟩]

theorem insFix_eq_RL {i : Iv} {ivs : List Iv} {l r : ITree}
    (h1 : (hgt l : Int) - (hgt r : Int) < -1) (h2 : i.start < keyT r) :
    insFix i ivs l r = rotate_left
      (.node ivs (1 + max (hgt l) (hgt r)) (computeMaxEnd ivs l r) l (rotate_right r)) := by
  have c1 : ¬(1 < (hgt l : Int) - (hgt r : Int) ∧ i.start < keyT l) :=
    fun hc => absurd hc.1 (by omega)
  have c2 : ¬((hgt l : Int) - (hgt r : Int) < -1 ∧ keyT r < i.start) :=
    fun hc => absurd h2 (by omega)
  have c3 : ¬(1 < (hgt l : Int) - (hgt r : Int) ∧ keyT l < i.start) :=
    fun hc => absurd hc.1 (by omega)
  unfold insFix
  rw [if_neg c1, if_neg c2, if_neg c3, if_pos ⟨h1, h2⟩]

theorem eraseFix_eq_bal {ivs : List Iv} {l r : ITree}
    (h1 : (hgt l : Int) - (hgt r : Int) ≤ 1)
    (h2 : -1 ≤ (hgt l : Int) - (hgt r : Int)) :
    eraseFix ivs l r =
      .node ivs (1 + max (hgt l) (hgt r)) (computeMaxEnd ivs l r) l r := by
  have c1 : ¬(1 < (hgt l : Int) - (hgt r : Int) ∧ 0 ≤ balI l) :=
    fun hc => absurd hc.1 (by omega)
  have c2 : ¬(1 < (hgt l : Int) - (hgt r : Int) ∧ balI l < 0) :=
    fun hc => absurd hc.1 (by omega)
  have c3 : ¬((hgt l : Int) - (hgt r : Int) < -1 ∧ balI r ≤ 0) :=
    fun hc => absurd hc.1 (by omega)
  have c4 : ¬((hgt l : Int) - (hgt r : Int) < -1 ∧ 0 < balI r) :=
    fun hc => absurd hc.1 (by omega)
  unfold eraseFix
  rw [if_neg c1, if_neg c2, if_neg c3, if_neg c4]

theorem eraseFix_eq_LL {ivs : List Iv} {l r : ITree}
    (h1 : 1 < (hgt l : Int) - (hgt r : Int)) (h2 : 0 ≤ balI l) :
    eraseFix ivs l r = rotate_right
      (.node ivs (1 + max (hgt l) (hgt r)) (computeMaxEnd ivs l r) l r) := by
  unfold eraseFix
  rw [if_pos ⟨h1, h2⟩]

theorem eraseFix_eq_LR {ivs : List Iv} {l r : ITree}
    (h1 : 1 < (hgt l : Int) - (hgt r : Int)) (h2 : balI l < 0) :
    eraseFix ivs l r = rotate_right
      (.node ivs (1 + max (hgt l) (hgt r)) (computeMaxEnd ivs l r) (rotate_left l) r) := by
  have c1 : ¬(1 < (hgt l : Int) - (hgt r : Int) ∧ 0 ≤ balI l) :=
    fun hc => absurd hc.2 (by omega)
  unfold eraseFix
  rw [if_neg c1, if_pos ⟨h1, h2⟩]

theorem eraseFix_eq_RR {ivs : List Iv} {l r : ITree}
    (h1 : (hgt l : Int) - (hgt r : Int) < -1) (h2 : balI r ≤ 0) :
    eraseFix ivs l r = rotate_left
      (.node ivs (1 + max (hgt l) (hgt r)) (computeMaxEnd ivs l r) l r) := by
  have c1 : ¬(1 < (hgt l : Int) - (hgt r : Int) ∧ 0 ≤ balI l) :=
    fun hc => absurd hc.1 (by omega)
  have c2 : ¬(1 < (hgt l : Int) - (hgt r : Int) ∧ balI l < 0) :=
    fun hc => absurd hc.1 (by omega)
  unfold eraseFix
  rw [if_neg c1, if_neg c2, if_pos ⟨h1, h2⟩]

theorem eraseFix_eq_RL {ivs : List Iv} {l r : ITree}
    (h1 : (hgt l : Int) - (hgt r : Int) < -1) (h2 : 0 < balI r) :
    eraseFix ivs l r = rotate_left
      (.node ivs (1 + max (hgt l) (hgt r)) (computeMaxEnd ivs l r) l (rotate_right r)) := by
  have c1 : ¬(1 < (hgt l : Int) - (hgt r : Int) ∧ 0 ≤ balI l) :=
    fun hc => absurd hc.1 (by omega)
  have c2 : ¬(1 < (hgt l : Int) - (hgt r : Int) ∧ balI l < 0) :=
    fun hc => absurd hc.1 (by omega)
  have c3 : ¬((hgt l : Int) - (hgt r : Int) < -1 ∧ balI r ≤ 0) :=
    fun hc => absurd hc.2 (by omega)
  unfold eraseFix
  rw [if_neg c1, if_neg c2, if_neg c3, if_pos ⟨h1, h2⟩]

theorem hgt_leaf : hgt ITree.leaf = 0 := rfl

theorem hgt_node (ivs : List Iv) (h me : Nat) (l r : ITree) :
    hgt (ITree.node ivs h me l r) = h := rfl

theorem keyT_node (ivs : List Iv) (h me : Nat) (l r : ITree) :
    keyT (ITree.node ivs h me l r) = (front ivs).start := rfl

theorem balI_node (ivs : List Iv) (h me : Nat) (l r : ITree) :
    balI (ITree.node ivs h me l r) = (hgt l : Int) - (hgt r : Int) := rfl

theorem HOk_node (ivs : List Iv) (h me : Nat) (l r : ITree) :
    HOk (ITree.node ivs h me l r) ↔
      h = 1 + max (hgt l) (hgt r) ∧ HOk l ∧ HOk r := Iff.rfl

theorem BalS_node (ivs : List Iv) (h me : Nat) (l r : ITree) :
    BalS (ITree.node ivs h me l r) ↔
      hgt l ≤ hgt r + 1 ∧ hgt r ≤ hgt l + 1 ∧ BalS l ∧ BalS r := Iff.rfl

theorem rotate_left_node (ivs : List Iv) (h me : Nat) (l : ITree)
    (rivs : List Iv) (rh rme : Nat) (rl rr : ITree) :
    rotate_left (ITree.node ivs h me l (ITree.node rivs rh rme rl rr)) =
      ITree.node rivs
        (max (hgt (ITree.node ivs (max (hgt l) (hgt rl) + 1) me l rl)) (hgt rr) + 1)
        (computeMaxEnd rivs (ITree.node ivs (max (hgt l) (hgt rl) + 1) me l rl) rr)
        (ITree.node ivs (max (hgt l) (hgt rl) + 1) me l rl) rr := rfl

theorem rotate_right_node (ivs : List Iv) (h me : Nat)
    (livs : List Iv) (lh lme : Nat) (ll lr : ITree) (r : ITree) :
    rotate_right (ITree.node ivs h me (ITree.node livs lh lme ll lr) r) =
      ITree.node livs
        (max (hgt ll) (hgt (ITree.node ivs (max (hgt lr) (hgt r) + 1) me lr r)) + 1)
        (computeMaxEnd livs ll (ITree.node ivs (max (hgt lr) (hgt r) + 1) me lr r))
        ll (ITree.node ivs (max (hgt lr) (hgt r) + 1) me lr r) := rfl

theorem insFix_rot_left_bal (i : Iv) (ivs : List Iv) (l r : ITree)
    (hokl : HOk l) (hokr : HOk r) (bsl : BalS l) (bsr : BalS r)
    (hb : (hgt l : Int) - (hgt r : Int) = 2)
    (hk1 : i.start < keyT l → 0 < balI l)
    (hk2 : keyT l < i.start → balI l < 0)
    (hk3 : i.start ≠ keyT l) :
    HOk (insFix i ivs l r) ∧ BalS (insFix i ivs l r) ∧
      hgt (insFix i ivs l r) = hgt l := by
  cases l with
  | leaf => exfalso; simp only [hgt_leaf] at hb; omega
  | node Livs Lh Lme LL LR =>
    simp only [HOk_node] at hokl
    obtain ⟨hLh, hokLL, hokLR⟩ := hokl
    simp only [BalS_node] at bsl
    obtain ⟨bL1, bL2, bsLL, bsLR⟩ := bsl
    simp only [hgt_node] at hb
    simp only [keyT_node] at hk1 hk2 hk3
    simp only [balI_node] at hk1 hk2
    rcases lt_trichotomy i.start (front Livs).start with hlt | heq | hgtc
    · have hbal := hk1 hlt
      rw [insFix_eq_LL (by simp only [hgt_node]; omega) (by simp only [keyT_node]; exact hlt)]
      simp only [rotate_right_node, HOk_node, BalS_node, hgt_node]
      exact ⟨⟨by omega, hokLL, by omega, hokLR, hokr⟩,
        ⟨by omega, by omega, bsLL, by omega, by omega, bsLR, bsr⟩, by omega⟩
    · exact absurd heq hk3
    · have hbal := hk2 hgtc
      cases LR with
      | leaf => exfalso; simp only [hgt_leaf] at hbal; omega
      | node Rvs Rh Rme RL RR =>
        simp only [HOk_node] at hokLR
        obtain ⟨hRh, hokRL, hokRR⟩ := hokLR
        simp only [BalS_node] at bsLR
        obtain ⟨bR1, bR2, bsRL, bsRR⟩ := bsLR
        simp only [hgt_node] at hbal bL1 bL2 hLh
        rw [insFix_eq_LR (by simp only [hgt_node]; omega) (by simp only [keyT_node]; exact hgtc)]
        simp only [rotate_left_node, rotate_right_node, HOk_node, BalS_node,
          hgt_node]
        exact ⟨⟨by omega, ⟨by omega, hokLL, hokRL⟩, by omega, hokRR, hokr⟩,
          ⟨by omega, by omega, ⟨by omega, by omega, bsLL, bsRL⟩,
            by omega, by omega, bsRR, bsr⟩, by omega⟩

theorem insFix_rot_right_bal (i : Iv) (ivs : List Iv) (l r : ITree)
    (hokl : HOk l) (hokr : HOk r) (bsl : BalS l) (bsr : BalS r)
    (hb : (hgt l : Int) - (hgt r : Int) = -2)
    (hk1 : keyT r < i.start → balI r < 0)
    (hk2 : i.start < keyT r → 0 < balI r)
    (hk3 : i.start ≠ keyT r) :
    HOk (insFix i ivs l r) ∧ BalS (insFix i ivs l r) ∧
      hgt (insFix i ivs l r) = hgt r := by
  cases r with
  | leaf => exfalso; simp only [hgt_leaf] at hb; omega
  | node Rvs Rh Rme RL RR =>
    simp only [HOk_node] at hokr
    obtain ⟨hRh, hokRL, hokRR⟩ := hokr
    simp only [BalS_node] at bsr
    obtain ⟨bR1, bR2, bsRL, bsRR⟩ := bsr
    simp only [hgt_node] at hb
    simp only [keyT_node] at hk1 hk2 hk3
    simp only [balI_node] at hk1 hk2
    rcases lt_trichotomy i.start (front Rvs).start with hlt | heq | hgtc
    · have hbal := hk2 hlt
      cases RL with
      | leaf => exfalso; simp only [hgt_leaf] at hbal; omega
      | node Qvs Qh Qme QL QR =>
        simp only [HOk_node] at hokRL
        obtain ⟨hQh, hokQL, hokQR⟩ := hokRL
        simp only [BalS_node] at bsRL
        obtain ⟨bQ1, bQ2, bsQL, bsQR⟩ := bsRL
        simp only [hgt_node] at hbal bR1 bR2 hRh
        rw [insFix_eq_RL (by simp only [hgt_node]; omega)
          (by simp only [keyT_node]; exact hlt)]
        simp only [rotate_left_node, rotate_right_node, HOk_node, BalS_node,
          hgt_node]
        exact ⟨⟨by omega, ⟨by omega, hokl, hokQL⟩, by omega, hokQR, hokRR⟩,
          ⟨by omega, by omega, ⟨by omega, by omega, bsl, bsQL⟩,
            by omega, by omega, bsQR, bsRR⟩, by omega⟩
    · exact absurd heq hk3
    · have hbal := hk1 hgtc
      rw [insFix_eq_RR (by simp only [hgt_node]; omega)
        (by simp only [keyT_node]; exact hgtc)]
      simp only [rotate_left_node, HOk_node, BalS_node, hgt_node]
      exact ⟨⟨by omega, ⟨by omega, hokl, hokRL⟩, hokRR⟩,
        ⟨by omega, by omega, ⟨by omega, by omega, bsl, bsRL⟩, bsRR⟩, by omega⟩

theorem eraseFix_rot_left_bal (ivs : List Iv) (l r : ITree)
    (hokl : HOk l) (hokr : HOk r) (bsl : BalS l) (bsr : BalS r)
    (hb : (hgt l : Int) - (hgt r : Int) = 2) :
    HOk (eraseFix ivs l r) ∧ BalS (eraseFix ivs l r) ∧
      (hgt (eraseFix ivs l r) = hgt l ∨ hgt (eraseFix ivs l r) = hgt l + 1) := by
  cases l with
  | leaf => exfalso; simp only [hgt_leaf] at hb; omega
  | node Livs Lh Lme LL LR =>
    simp only [HOk_node] at hokl
    obtain ⟨hLh, hokLL, hokLR⟩ := hokl
    simp only [BalS_node] at bsl
    obtain ⟨bL1, bL2, bsLL, bsLR⟩ := bsl
    simp only [hgt_node] at hb
    by_cases hbl : (0 : Int) ≤ (hgt LL : Int) - (hgt LR : Int)
    · rw [eraseFix_eq_LL (by simp only [hgt_node]; omega)
        (by simp only [balI_node]; exact hbl)]
      simp only [rotate_right_node, HOk_node, BalS_node, hgt_node]
      exact ⟨⟨by omega, hokLL, by omega, hokLR, hokr⟩,
        ⟨by omega, by omega, bsLL, by omega, by omega, bsLR, bsr⟩, by omega⟩
    · cases LR with
      | leaf => exfalso; simp only [hgt_leaf] at hbl; omega
      | node Rvs Rh Rme RL RR =>
        simp only [HOk_node] at hokLR
        obtain ⟨hRh, hokRL, hokRR⟩ := hokLR
        simp only [BalS_node] at bsLR
        obtain ⟨bR1, bR2, bsRL, bsRR⟩ := bsLR
        simp only [hgt_node] at hbl bL1 bL2 hLh
        rw [eraseFix_eq_LR (by simp only [hgt_node]; omega)
          (by simp only [balI_node, hgt_node]; omega)]
        simp only [rotate_left_node, rotate_right_node, HOk_node, BalS_node,
          hgt_node]
        exact ⟨⟨by omega, ⟨by omega, hokLL, hokRL⟩, by omega, hokRR, hokr⟩,
          ⟨by omega, by omega, ⟨by omega, by omega, bsLL, bsRL⟩,
            by omega, by omega, bsRR, bsr⟩, by omega⟩

theorem eraseFix_rot_right_bal (ivs : List Iv) (l r : ITree)
    (hokl : HOk l) (hokr : HOk r) (bsl : BalS l) (bsr : BalS r)
    (hb : (hgt l : Int) - (hgt r : Int) = -2) :
    HOk (eraseFix ivs l r) ∧ BalS (eraseFix ivs l r) ∧
      (hgt (eraseFix ivs l r) = hgt r ∨ hgt (eraseFix ivs l r) = hgt r + 1) := by
  cases r with
  | leaf => exfalso; simp only [hgt_leaf] at hb; omega
  | node Rvs Rh Rme RL RR =>
    simp only [HOk_node] at hokr
    obtain ⟨hRh, hokRL, hokRR⟩ := hokr
    simp only [BalS_node] at bsr
    obtain ⟨bR1, bR2, bsRL, bsRR⟩ := bsr
    simp only [hgt_node] at hb
    by_cases hbr : (hgt RL : Int) - (hgt RR : Int) ≤ 0
    · rw [eraseFix_eq_RR (by simp only [hgt_node]; omega)
        (by simp only [balI_node]; exact hbr)]
      simp only [rotate_left_node, HOk_node, BalS_node, hgt_node]
      exact ⟨⟨by omega, ⟨by omega, hokl, hokRL⟩, hokRR⟩,
        ⟨by omega, by omega, ⟨by omega, by omega, bsl, bsRL⟩, bsRR⟩, by omega⟩
    · cases RL with
      | leaf => exfalso; simp only [hgt_leaf] at hbr; omega
      | node Qvs Qh Qme QL QR =>
        simp only [HOk_node] at hokRL
        obtain ⟨hQh, hokQL, hokQR⟩ := hokRL
        simp only [BalS_node] at bsRL
        obtain ⟨bQ1, bQ2, bsQL, bsQR⟩ := bsRL
        simp only [hgt_node] at hbr bR1 bR2 hRh
        rw [eraseFix_eq_RL (by simp only [hgt_node]; omega)
          (by simp only [balI_node, hgt_node]; omega)]
        simp only [rotate_left_node, rotate_right_node, HOk_node, BalS_node,
          hgt_node]
        exact ⟨⟨by omega, ⟨by omega, hokl, hokQL⟩, by omega, hokQR, hokRR⟩,
          ⟨by omega, by omega, ⟨by omega, by omega, bsl, bsQL⟩,
            by omega, by omega, bsQR, bsRR⟩, by omega⟩

theorem insertT_leaf_eq (i : Iv) :
    insertT i ITree.leaf = .node [i] 1 i.endp .leaf .leaf := rfl

theorem insertT_node_eq (i : Iv) (ivs : List Iv) (h me : Nat) (l r : ITree) :
    insertT i (ITree.node ivs h me l r) =
      if i.start < (front ivs).start then insFix i ivs (insertT i l) r
      else if (front ivs).start < i.start then insFix i ivs l (insertT i r)
      else insFix i (ivs ++ [i]) l r := rfl

theorem insertT_bal (i : Iv) : ∀ t : ITree, HOk t → BalS t →
    HOk (insertT i t) ∧ BalS (insertT i t) ∧
    (hgt (insertT i t) = hgt t ∨ hgt (insertT i t) = hgt t + 1) ∧
    (hgt (insertT i t) = hgt t + 1 → t ≠ ITree.leaf →
      (i.start < keyT (insertT i t) → 0 < balI (insertT i t)) ∧
      (keyT (insertT i t) < i.start → balI (insertT i t) < 0) ∧
      i.start ≠ keyT (insertT i t)) := by
  intro t
  induction t with
  | leaf =>
    intro _ _
    simp only [insertT_leaf_eq, HOk_node, BalS_node, hgt_node, hgt_leaf]
    exact ⟨⟨by first | trivial | omega, trivial, trivial⟩,
      ⟨by first | trivial | omega, by first | trivial | omega, trivial, trivial⟩,
      by first | trivial | omega, fun _ hne => absurd rfl hne⟩
  | node ivs ht me l r ihl ihr =>
    intro hok bs
    simp only [HOk_node] at hok
    obtain ⟨hht, hokl, hokr⟩ := hok
    simp only [BalS_node] at bs
    obtain ⟨b1, b2, bsl, bsr⟩ := bs
    obtain ⟨iHl, iBl, ihhl, ihgl⟩ := ihl hokl bsl
    obtain ⟨iHr, iBr, ihhr, ihgr⟩ := ihr hokr bsr
    simp only [insertT_node_eq]
    rcases lt_trichotomy i.start (front ivs).start with hlt | heq | hgtc
    · rw [if_pos hlt]
      by_cases hg : hgt (insertT i l) = hgt l + 1
      · by_cases hb2 : (hgt (insertT i l) : Int) - (hgt r : Int) ≤ 1
        · rw [insFix_eq_bal hb2 (by omega)]
          simp only [HOk_node, BalS_node, hgt_node, keyT_node, balI_node]
          refine ⟨⟨by first | trivial | omega, iHl, hokr⟩,
            ⟨by first | trivial | omega, by first | trivial | omega, iBl, bsr⟩,
            by first | trivial | omega, ?_⟩
          intro hgrow _
          exact ⟨fun _ => by omega, fun hcon => by omega, by omega⟩
        · have hbal2 : (hgt (insertT i l) : Int) - (hgt r : Int) = 2 := by omega
          have hlpos : 1 ≤ hgt l := by omega
          have hlne : l ≠ ITree.leaf := fun he => by
            rw [he, hgt_leaf] at hlpos; omega
          obtain ⟨g1, g2, g3⟩ := ihgl hg hlne
          obtain ⟨rH, rB, rh⟩ := insFix_rot_left_bal i ivs (insertT i l) r
            iHl hokr iBl bsr hbal2 g1 g2 g3
          refine ⟨rH, rB, Or.inl (by rw [hgt_node]; omega), ?_⟩
          intro hgrow _
          exfalso
          rw [hgt_node] at hgrow
          omega
      · have hsame : hgt (insertT i l) = hgt l := by
          rcases ihhl with h | h
          · exact h
          · exact absurd h hg
        rw [insFix_eq_bal (by omega) (by omega)]
        simp only [HOk_node, BalS_node, hgt_node, keyT_node, balI_node]
        refine ⟨⟨by first | trivial | omega, iHl, hokr⟩,
          ⟨by first | trivial | omega, by first | trivial | omega, iBl, bsr⟩,
          by first | trivial | omega, ?_⟩
        intro hgrow _
        exfalso
        omega
    · rw [if_neg (by omega), if_neg (by omega)]
      rw [insFix_eq_bal (by omega) (by omega)]
      simp only [HOk_node, BalS_node, hgt_node]
      refine ⟨⟨by first | trivial | omega, hokl, hokr⟩,
        ⟨by first | trivial | omega, by first | trivial | omega, bsl, bsr⟩,
        by first | trivial | omega, ?_⟩
      intro hgrow _
      exfalso
      omega
    · rw [if_neg (by omega), if_pos hgtc]
      by_cases hg : hgt (insertT i r) = hgt r + 1
      · by_cases hb2 : -1 ≤ (hgt l : Int) - (hgt (insertT i r) : Int)
        · rw [insFix_eq_bal (by omega) hb2]
          simp only [HOk_node, BalS_node, hgt_node, keyT_node, balI_node]
          refine ⟨⟨by first | trivial | omega, hokl, iHr⟩,
            ⟨by first | trivial | omega, by first | trivial | omega, bsl, iBr⟩,
            by first | trivial | omega, ?_⟩
          intro hgrow _
          exact ⟨fun hcon => by omega, fun _ => by omega, by omega⟩
        · have hbal2 : (hgt l : Int) - (hgt (insertT i r) : Int) = -2 := by omega
          have hrpos : 1 ≤ hgt r := by omega
          have hrne : r ≠ ITree.leaf := fun he => by
            rw [he, hgt_leaf] at hrpos; omega
          obtain ⟨g1, g2, g3⟩ := ihgr hg hrne
          obtain ⟨rH, rB, rh⟩ := insFix_rot_right_bal i ivs l (insertT i r)
            hokl iHr bsl iBr hbal2 g2 g1 g3
          refine ⟨rH, rB, Or.inl (by rw [hgt_node]; omega), ?_⟩
          intro hgrow _
          exfalso
          rw [hgt_node] at hgrow
          omega
      · have hsame : hgt (insertT i r) = hgt r := by
          rcases ihhr with h | h
          · exact h
          · exact absurd h hg
        rw [insFix_eq_bal (by omega) (by omega)]
        simp only [HOk_node, BalS_node, hgt_node, keyT_node, balI_node]
        refine ⟨⟨by first | trivial | omega, hokl, iHr⟩,
          ⟨by first | trivial | omega, by first | trivial | omega, bsl, iBr⟩,
          by first | trivial | omega, ?_⟩
        intro hgrow _
        exfalso
        omega

theorem innerErase_leaf_eq (key id : Nat) :
    innerErase ITree.leaf key id = (ITree.leaf, false) := rfl

theorem innerErase_eq_lt {ivs : List Iv} {ht me : Nat} {l r : ITree}
    {key : Nat} (id : Nat) (h : key < (front ivs).start) :
    innerErase (ITree.node ivs ht me l r) key id =
      (eraseFix ivs (innerErase l key id).1 r, (innerErase l key id).2) := by
  cases l <;> cases r <;> (conv_lhs => rw [innerErase]) <;> rw [if_pos h]

theorem innerErase_eq_gt {ivs : List Iv} {ht me : Nat} {l r : ITree}
    {key : Nat} (id : Nat) (h1 : ¬key < (front ivs).start)
    (h2 : (front ivs).start < key) :
    innerErase (ITree.node ivs ht me l r) key id =
      (eraseFix ivs l (innerErase r key id).1, (innerErase r key id).2) := by
  cases l <;> cases r <;> (conv_lhs => rw [innerErase]) <;>
    rw [if_neg h1, if_pos h2]

theorem innerErase_eq_multi {ivs : List Iv} {ht me : Nat} {l r : ITree}
    {key : Nat} (id : Nat) (h1 : ¬key < (front ivs).start)
    (h2 : ¬(front ivs).start < key) (h3 : 1 < ivs.length) :
    innerErase (ITree.node ivs ht me l r) key id =
      (eraseFix (removeFirstById ivs id) l r,
        ivs.any (fun iv => iv.id == id)) := by
  cases l <;> cases r <;> (conv_lhs => rw [innerErase]) <;>
    rw [if_neg h1, if_neg h2, if_pos h3]

theorem innerErase_eq_none {ivs : List Iv} {ht me : Nat}
    {key : Nat} (id : Nat) (h1 : ¬key < (front ivs).start)
    (h2 : ¬(front ivs).start < key) (h3 : ¬1 < ivs.length) :
    innerErase (ITree.node ivs ht me ITree.leaf ITree.leaf) key id =
      (ITree.leaf, false) := by
  rw [innerErase, if_neg h1, if_neg h2, if_neg h3]

theorem innerErase_eq_left {ivs : List Iv} {ht me : Nat}
    {cvs : List Iv} {ch cme : Nat} {cl cr : ITree}
    {key : Nat} (id : Nat) (h1 : ¬key < (front ivs).start)
    (h2 : ¬(front ivs).start < key) (h3 : ¬1 < ivs.length) :
    innerErase (ITree.node ivs ht me (ITree.node cvs ch cme cl cr) ITree.leaf)
        key id = (eraseFix cvs cl cr, false) := by
  rw [innerErase, if_neg h1, if_neg h2, if_neg h3]

theorem innerErase_eq_right {ivs : List Iv} {ht me : Nat}
    {cvs : List Iv} {ch cme : Nat} {cl cr : ITree}
    {key : Nat} (id : Nat) (h1 : ¬key < (front ivs).start)
    (h2 : ¬(front ivs).start < key) (h3 : ¬1 < ivs.length) :
    innerErase (ITree.node ivs ht me ITree.leaf (ITree.node cvs ch cme cl cr))
        key id = (eraseFix cvs cl cr, false) := by
  rw [innerErase, if_neg h1, if_neg h2, if_neg h3]

theorem innerErase_eq_two {ivs : List Iv} {ht me : Nat}
    {lvs : List Iv} {lh lme : Nat} {ll lr : ITree}
    {rvs : List Iv} {rh rme : Nat} {rl rr : ITree}
    {key : Nat} (id : Nat) (h1 : ¬key < (front ivs).start)
    (h2 : ¬(front ivs).start < key) (h3 : ¬1 < ivs.length) :
    innerErase (ITree.node ivs ht me (ITree.node lvs lh lme ll lr)
        (ITree.node rvs rh rme rl rr)) key id =
      (eraseFix [minNodeFront (ITree.node rvs rh rme rl rr)]
        (ITree.node lvs lh lme ll lr)
        (innerErase (ITree.node rvs rh rme rl rr)
          (minNodeFront (ITree.node rvs rh rme rl rr)).start id).1,
       (innerErase (ITree.node rvs rh rme rl rr)
          (minNodeFront (ITree.node rvs rh rme rl rr)).start id).2) := by
  rw [innerErase, if_neg h1, if_neg h2, if_neg h3]

theorem innerErase_bal (t : ITree) : ∀ key id : Nat, HOk t → BalS t →
    HOk (innerErase t key id).1 ∧ BalS (innerErase t key id).1 ∧
    (hgt (innerErase t key id).1 = hgt t ∨
      hgt (innerErase t key id).1 + 1 = hgt t) := by
  induction t with
  | leaf =>
    intro key id _ _
    rw [innerErase_leaf_eq]
    exact ⟨trivial, trivial, Or.inl rfl⟩
  | node ivs ht me l r ihl ihr =>
    intro key id hok bs
    simp only [HOk_node] at hok
    obtain ⟨hht, hokl, hokr⟩ := hok
    simp only [BalS_node] at bs
    obtain ⟨b1, b2, bsl, bsr⟩ := bs
    rcases lt_trichotomy key (front ivs).start with hlt | heq | hgtc
    · rw [innerErase_eq_lt id hlt]
      obtain ⟨eH, eB, eh⟩ := ihl key id hokl bsl
      by_cases hb : -1 ≤ (hgt (innerErase l key id).1 : Int) - (hgt r : Int)
      · rw [eraseFix_eq_bal (by omega) hb]
        simp only [HOk_node, BalS_node, hgt_node]
        exact ⟨⟨by first | trivial | omega, eH, hokr⟩,
          ⟨by first | trivial | omega, by first | trivial | omega, eB, bsr⟩,
          by first | trivial | omega⟩
      · obtain ⟨rH, rB, rh⟩ := eraseFix_rot_right_bal ivs
          (innerErase l key id).1 r eH hokr eB bsr (by omega)
        refine ⟨rH, rB, ?_⟩
        simp only [hgt_node]
        omega
    · have h1 : ¬key < (front ivs).start := by omega
      have h2 : ¬(front ivs).start < key := by omega
      by_cases h3 : 1 < ivs.length
      · rw [innerErase_eq_multi id h1 h2 h3]
        rw [eraseFix_eq_bal (by omega) (by omega)]
        simp only [HOk_node, BalS_node, hgt_node]
        exact ⟨⟨by first | trivial | omega, hokl, hokr⟩,
          ⟨by first | trivial | omega, by first | trivial | omega, bsl, bsr⟩,
          by first | trivial | omega⟩
      · cases l with
        | leaf =>
          cases r with
          | leaf =>
            rw [innerErase_eq_none id h1 h2 h3]
            simp only [hgt_node, hgt_leaf] at hht ⊢
            exact ⟨trivial, trivial, by omega⟩
          | node cvs ch cme cl cr =>
            rw [innerErase_eq_right id h1 h2 h3]
            simp only [HOk_node] at hokr
            obtain ⟨hch, hokcl, hokcr⟩ := hokr
            simp only [BalS_node] at bsr
            obtain ⟨c1, c2, bscl, bscr⟩ := bsr
            rw [eraseFix_eq_bal (by omega) (by omega)]
            simp only [HOk_node, BalS_node, hgt_node, hgt_leaf] at hht b1 b2 ⊢
            exact ⟨⟨by first | trivial | omega, hokcl, hokcr⟩,
              ⟨by first | trivial | omega, by first | trivial | omega, bscl,
                bscr⟩, by first | trivial | omega⟩
        | node cvs ch cme cl cr =>
          cases r with
          | leaf =>
            rw [innerErase_eq_left id h1 h2 h3]
            simp only [HOk_node] at hokl
            obtain ⟨hch, hokcl, hokcr⟩ := hokl
            simp only [BalS_node] at bsl
            obtain ⟨c1, c2, bscl, bscr⟩ := bsl
            rw [eraseFix_eq_bal (by omega) (by omega)]
            simp only [HOk_node, BalS_node, hgt_node, hgt_leaf] at hht b1 b2 ⊢
            exact ⟨⟨by first | trivial | omega, hokcl, hokcr⟩,
              ⟨by first | trivial | omega, by first | trivial | omega, bscl,
                bscr⟩, by first | trivial | omega⟩
          | node rvs rh rme rl rr =>
            rw [innerErase_eq_two id h1 h2 h3]
            obtain ⟨eH, eB, eh⟩ := ihr
              (minNodeFront (ITree.node rvs rh rme rl rr)).start id hokr bsr
            simp only [hgt_node] at hht b1 b2 eh
            by_cases hb : (hgt (ITree.node cvs ch cme cl cr) : Int) -
                (hgt (innerErase (ITree.node rvs rh rme rl rr)
                  (minNodeFront (ITree.node rvs rh rme rl rr)).start id).1 : Int) ≤ 1
            all_goals simp only [hgt_node] at hb
            · rw [eraseFix_eq_bal (by simp only [hgt_node]; omega)
                (by simp only [hgt_node]; omega)]
              simp only [HOk_node, BalS_node, hgt_node]
              exact ⟨⟨by first | trivial | omega, hokl, eH⟩,
                ⟨by first | trivial | omega, by first | trivial | omega, bsl,
                  eB⟩, by first | trivial | omega⟩
            · obtain ⟨rH, rB, rhh⟩ := eraseFix_rot_left_bal
                [minNodeFront (ITree.node rvs rh rme rl rr)]
                (ITree.node cvs ch cme cl cr)
                (innerErase (ITree.node rvs rh rme rl rr)
                  (minNodeFront (ITree.node rvs rh rme rl rr)).start id).1
                hokl eH bsl eB
                (by simp only [hgt_node]; omega)
              refine ⟨rH, rB, ?_⟩
              simp only [hgt_node] at rhh ⊢
              omega
    · rw [innerErase_eq_gt id (by omega) hgtc]
      obtain ⟨eH, eB, eh⟩ := ihr key id hokr bsr
      by_cases hb : (hgt l : Int) - (hgt (innerErase r key id).1 : Int) ≤ 1
      · rw [eraseFix_eq_bal hb (by omega)]
        simp only [HOk_node, BalS_node, hgt_node]
        exact ⟨⟨by first | trivial | omega, hokl, eH⟩,
          ⟨by first | trivial | omega, by first | trivial | omega, bsl, eB⟩,
          by first | trivial | omega⟩
      · obtain ⟨rH, rB, rhh⟩ := eraseFix_rot_left_bal ivs l
          (innerErase r key id).1 hokl eH bsl eB (by omega)
        refine ⟨rH, rB, ?_⟩
        simp only [hgt_node]
        omega

theorem hgt_eq_realHeight : ∀ t : ITree, HOk t → hgt t = realHeight t := by
  intro t
  induction t with
  | leaf => intro _; rfl
  | node ivs ht me l r ihl ihr =>
    intro hok
    simp only [HOk_node] at hok
    obtain ⟨hht, hokl, hokr⟩ := hok
    simp only [hgt_node, realHeight, hht, ihl hokl, ihr hokr]

theorem balancedReal_of (t : ITree) (hok : HOk t) (bs : BalS t) :
    BalancedReal t := by
  induction t with
  | leaf => trivial
  | node ivs ht me l r ihl ihr =>
    simp only [HOk_node] at hok
    obtain ⟨hht, hokl, hokr⟩ := hok
    simp only [BalS_node] at bs
    obtain ⟨b1, b2, bsl, bsr⟩ := bs
    rw [hgt_eq_realHeight l hokl, hgt_eq_realHeight r hokr] at b1 b2
    exact ⟨b1, b2, ihl hokl bsl, ihr hokr bsr⟩

theorem foldl_applyOp_bal (ops : List RegOp) :
    ∀ s : TreeState, HOk s.root → BalS s.root →
      HOk ((ops.foldl applyOp s).root) ∧ BalS ((ops.foldl applyOp s).root) := by
  induction ops with
  | nil => exact fun s h b => ⟨h, b⟩
  | cons op rest ih =>
    intro s hok bs
    refine ih (applyOp s op) ?_ ?_ |>.imp id id
    all_goals cases op with
    | ins a b v =>
      first
      | exact (insertT_bal _ _ hok bs).1
      | exact (insertT_bal _ _ hok bs).2.1
    | del id =>
      simp only [applyOp, TreeState.eraseId]
      rcases mapLookup s.id_to_node id with _ | iv
      · first | exact hok | exact bs
      · first
        | exact (innerErase_bal _ _ _ hok bs).1
        | exact (innerErase_bal _ _ _ hok bs).2.1

/-- C1: the claim states that `query(p)` returns exactly the set of
currently-inserted intervals containing `p`, each exactly once, after
every sequence of inserts and erases.  The code refutes this: after
inserting `[20,25]`, `[10,15]`, `[30,40]`, `[30,50]` and erasing id 0,
the two-children deletion branch copies the in-order successor's front
interval (id 2) into the deleted node but the recursive erase - which is
passed the original id 0 - removes nothing from the successor's node, so
interval id 2 (still registered, as the side index shows) is stored
twice and `query(35)` returns it twice. -/
theorem C1_query_duplicate_after_erase :
    mapLookup (runOps [RegOp.ins 20 25 0, RegOp.ins 10 15 1,
      RegOp.ins 30 40 2, RegOp.ins 30 50 3, RegOp.del 0]).id_to_node 2 =
        some ⟨30, 40, 2, 2⟩ ∧
    ((runOps [RegOp.ins 20 25 0, RegOp.ins 10 15 1, RegOp.ins 30 40 2,
      RegOp.ins 30 50 3, RegOp.del 0]).query 35).count ⟨30, 40, 2, 2⟩ = 2 := by
  decide

/-- C2: the claim states that when guarding fails during session
creation the error is propagated and the partial registry insert is
rolled back.  The code refutes the rollback: `Datamon::Datamon` inserts
into the interval tree and then calls `protect_memory`; if that throws,
the constructor propagates the exception but never erases the inserted
interval (and leaves the refcount incremented), so the registry still
contains the interval of the failed creation. -/
theorem C2_failed_create_leaves_registry_entry :
    (datamonCtor ⟨0, false, emptyState⟩ 100 4 7 true false).1 = none ∧
    mapLookup (datamonCtor ⟨0, false, emptyState⟩ 100 4 7
      true false).2.tree.id_to_node 0 = some ⟨100, 104, 7, 0⟩ ∧
    (datamonCtor ⟨0, false, emptyState⟩ 100 4 7 true false).2.tree.root ≠
      ITree.leaf ∧
    (datamonCtor ⟨0, false, emptyState⟩ 100 4 7 true false).2.veh_refcount = 1 := by
  decide

/-- C3 (counterexample): the claim as stated - every node's `max_end`
equals the maximum of its own interval ends and the children's `max_end`
aggregates, after every sequence - is false: after inserting `(10,10)`,
`(20,100)`, `(30,30)` the right-right rotation recomputes `max_end` only
for the new subtree root, leaving the demoted node `[10,10]` with the
stale value 100 where the exact maximum is 10. -/
theorem C3_max_end_exact_counterexample :
    MEExactB (runOps [RegOp.ins 10 10 0, RegOp.ins 20 100 1,
      RegOp.ins 30 30 2]).root = false := by
  decide

/-- C3 (amended): after every sequence of insert and erase operations,
every node's `max_end` is an upper bound: it is at least each of the
node's own interval ends and at least both children's `max_end`
aggregates (the equality the specification states can fail at nodes
demoted by a rotation, whose `max_end` is left stale-high). -/
theorem C3_max_end_upper_bound (ops : List RegOp) :
    MEInv (runOps ops).root :=
  runOps_me_inv ops

/-- C4: after every sequence of insert and erase operations, every
node's balance factor - the true height of its left subtree minus the
true height of its right subtree - stays in `{-1, 0, 1}`. -/
theorem C4_balance_invariant (ops : List RegOp) :
    BalancedReal (runOps ops).root :=
  balancedReal_of _ (foldl_applyOp_bal ops emptyState trivial trivial).1
    (foldl_applyOp_bal ops emptyState trivial trivial).2

/-- C5: the claim states that in the two-children deletion case the
node's interval is replaced with the in-order successor's front interval
and that front interval is then removed from the successor's original
slot, leaving it stored exactly once.  The code refutes this: the
recursive erase is passed the original id being erased, so when the
successor node holds more than one interval nothing is removed from it -
after erasing id 0 below, interval id 2 is stored in two nodes (the
erased id's interval is indeed gone). -/
theorem C5_successor_interval_duplicated :
    (allIntervals (runOps [RegOp.ins 20 25 0, RegOp.ins 10 15 1,
      RegOp.ins 30 40 2, RegOp.ins 30 50 3,
      RegOp.del 0]).root).count ⟨30, 40, 2, 2⟩ = 2 ∧
    (∀ iv ∈ allIntervals (runOps [RegOp.ins 20 25 0, RegOp.ins 10 15 1,
      RegOp.ins 30 40 2, RegOp.ins 30 50 3, RegOp.del 0]).root,
      iv.id ≠ 0) := by
  decide

/-- C6: the claim states that inserting N intervals and erasing all N
ids leaves `empty()` true and the side index empty.  The code refutes
the side-index half even for N = 1: the single-interval node-deletion
branch of `erase` never calls `id_to_node_.erase`, so after inserting
one interval and erasing its id the tree is empty but the side index
still holds the stale entry. -/
theorem C6_side_index_entry_leaks :
    (runOps [RegOp.ins 10 20 5, RegOp.del 0]).emptyQ = true ∧
    (runOps [RegOp.ins 10 20 5, RegOp.del 0]).id_to_node =
      [(0, ⟨10, 20, 5, 0⟩)] := by
  decide

/-- C7: the claim states that erasing one id among intervals sharing a
start key removes only that interval and leaves the others queryable.
The code refutes the "removes" half on a reachable registry state: after
the C5 duplication (ops `ins [20,25]`, `ins [10,15]`, `ins [30,40]`,
`ins [30,50]`, `del 0`), ids 2 and 3 share start key 30; erasing id 2
drops it from the side index but a copy of interval id 2 is still stored
in the tree and still returned by `query(35)`. -/
theorem C7_erased_id_still_queryable :
    mapLookup (runOps [RegOp.ins 20 25 0, RegOp.ins 10 15 1,
      RegOp.ins 30 40 2, RegOp.ins 30 50 3, RegOp.del 0,
      RegOp.del 2]).id_to_node 2 = none ∧
    (⟨30, 40, 2, 2⟩ : Iv) ∈ (runOps [RegOp.ins 20 25 0, RegOp.ins 10 15 1,
      RegOp.ins 30 40 2, RegOp.ins 30 50 3, RegOp.del 0,
      RegOp.del 2]).query 35 := by
  decide

/-- C8 (counterexample): the claim as stated - every Armed thread's next
single-step trap is consumed, guarding re-applied and the recorded
address cleared - is false when the registry is empty at trap time (for
example because the last session was destroyed between the guard fault
and the single step): the handler returns `EXCEPTION_CONTINUE_SEARCH`
before even looking at the per-thread state, applies no protection
change and leaves the thread Armed. -/
theorem C8_armed_declined_on_empty_registry :
    handler emptyState ⟨5⟩ ⟨ExCode.singleStep, 0, 0, 0⟩ =
      ⟨Disposition.continueSearch, ⟨5⟩, [], [], false⟩ := by
  decide

/-- C8 (amended): provided the registry is non-empty at the time of the
trap, a single-instruction trap delivered to an Armed thread (a thread
with a nonzero recorded data address) is consumed: the handler returns
continue-execution, re-applies guarding (one `protect_memory` call
setting `PAGE_GUARD` at the recorded address, size 1), and clears the
recorded address, returning the thread to Idle. -/
theorem C8_armed_single_step_consumed (ts : TreeState) (th : ThreadState)
    (r : FaultRecord) (hne : ts.root ≠ ITree.leaf)
    (harm : th.lastDataAddress ≠ 0) (hss : r.code = ExCode.singleStep) :
    handler ts th r = ⟨Disposition.continueExecution, ⟨0⟩, [],
      [(th.lastDataAddress, 1, true)], false⟩ := by
  unfold handler
  rw [if_neg hne, if_neg (by rw [hss]; decide), if_pos ⟨harm, hss⟩]

/-- C8 (witness): the amended claim at a concrete input - a registry
holding one interval, a thread armed at address 5, a single-step trap. -/
theorem C8_armed_single_step_consumed_witness :
    (runOps [RegOp.ins 5 10 0]).root ≠ ITree.leaf ∧
    (⟨5⟩ : ThreadState).lastDataAddress ≠ 0 ∧
    (⟨ExCode.singleStep, 0, 0, 0⟩ : FaultRecord).code = ExCode.singleStep ∧
    handler (runOps [RegOp.ins 5 10 0]) ⟨5⟩ ⟨ExCode.singleStep, 0, 0, 0⟩ =
      ⟨Disposition.continueExecution, ⟨0⟩, [], [(5, 1, true)], false⟩ :=
  ⟨by decide, by decide, rfl,
    C8_armed_single_step_consumed (runOps [RegOp.ins 5 10 0]) ⟨5⟩
      ⟨ExCode.singleStep, 0, 0, 0⟩ (by decide) (by decide) rfl⟩

/-- C9: every fault that is neither a guard violation nor a single-step
completion for an Armed thread is declined - the handler returns the
continue-search disposition - and handling it invokes no callback,
performs no protection change, does not set the single-step flag and
leaves the per-thread state unchanged (the handler never writes the
registry at all, which the embedding reflects by returning no tree). -/
theorem C9_unrecognized_fault_declined (ts : TreeState) (th : ThreadState)
    (r : FaultRecord) (hng : r.code ≠ ExCode.guardViolation)
    (hna : r.code = ExCode.singleStep → th.lastDataAddress = 0) :
    handler ts th r = ⟨Disposition.continueSearch, th, [], [], false⟩ := by
  unfold handler
  by_cases he : ts.root = ITree.leaf
  · rw [if_pos he]
  · rw [if_neg he, if_neg hng, if_neg (fun hc => hc.1 (hna hc.2))]

/-- C9 (witness): the claim at a concrete input - a fault of an
unrecognized category delivered to an armed thread over a non-empty
registry falls through unchanged. -/
theorem C9_unrecognized_fault_declined_witness :
    (⟨ExCode.other, 1, 2, 3⟩ : FaultRecord).code ≠ ExCode.guardViolation ∧
    ((⟨ExCode.other, 1, 2, 3⟩ : FaultRecord).code = ExCode.singleStep →
      (⟨5⟩ : ThreadState).lastDataAddress = 0) ∧
    handler (runOps [RegOp.ins 5 10 0]) ⟨5⟩ ⟨ExCode.other, 1, 2, 3⟩ =
      ⟨Disposition.continueSearch, ⟨5⟩, [], [], false⟩ :=
  ⟨by decide, by decide,
    C9_unrecognized_fault_declined (runOps [RegOp.ins 5 10 0]) ⟨5⟩
      ⟨ExCode.other, 1, 2, 3⟩ (by decide) (by decide)⟩

/-- C10 (counterexample): the claim as stated is false when the
unwatched faulting data address is 0: the guard-violation phase records
0, which is the code's representation of "not armed", so the following
single-step trap is declined and no guarding is re-applied (the claim
says the following single-step trap re-applies guarding). -/
theorem C10_zero_address_not_rearmed :
    (∀ iv ∈ allIntervals (runOps [RegOp.ins 5 10 0]).root,
      ¬(iv.start ≤ 0 ∧ 0 ≤ iv.endp)) ∧
    handler (runOps [RegOp.ins 5 10 0]) ⟨7⟩ ⟨ExCode.guardViolation, 9, 1, 0⟩ =
      ⟨Disposition.continueExecution, ⟨0⟩, [], [], true⟩ ∧
    handler (runOps [RegOp.ins 5 10 0]) ⟨0⟩ ⟨ExCode.singleStep, 0, 0, 0⟩ =
      ⟨Disposition.continueSearch, ⟨0⟩, [], [], false⟩ := by
  decide

/-- C10 (amended): when the registry is non-empty, a guard-violation
fault at a data address contained in no registered interval is still
consumed: zero callbacks are invoked, the single-step flag is set and
the faulting address is recorded; and - provided that address is nonzero
- the following single-step trap re-applies guarding to it. -/
theorem C10_unwatched_guard_fault_consumed (ops : List RegOp)
    (th : ThreadState) (r : FaultRecord)
    (hne : (runOps ops).root ≠ ITree.leaf)
    (hg : r.code = ExCode.guardViolation)
    (hun : ∀ iv ∈ allIntervals (runOps ops).root,
      ¬(iv.start ≤ r.dataAddr ∧ r.dataAddr ≤ iv.endp))
    (hnz : r.dataAddr ≠ 0) :
    handler (runOps ops) th r =
      ⟨Disposition.continueExecution, ⟨r.dataAddr⟩, [], [], true⟩ ∧
    ∀ r2 : FaultRecord, r2.code = ExCode.singleStep →
      handler (runOps ops) ⟨r.dataAddr⟩ r2 =
        ⟨Disposition.continueExecution, ⟨0⟩, [], [(r.dataAddr, 1, true)],
          false⟩ := by
  constructor
  · unfold handler
    rw [if_neg hne, if_pos hg, query_eq_nil (runOps_sk ops) hun]
    rfl
  · intro r2 h2
    unfold handler
    rw [if_neg hne, if_neg (by rw [h2]; decide), if_pos ⟨hnz, h2⟩]

/-- C10 (witness): the amended claim at a concrete input - one watched
interval `[5,10]`, an unwatched nonzero fault address 20. -/
theorem C10_unwatched_guard_fault_consumed_witness :
    (runOps [RegOp.ins 5 10 0]).root ≠ ITree.leaf ∧
    (⟨ExCode.guardViolation, 99, 1, 20⟩ : FaultRecord).code =
      ExCode.guardViolation ∧
    (∀ iv ∈ allIntervals (runOps [RegOp.ins 5 10 0]).root,
      ¬(iv.start ≤ 20 ∧ 20 ≤ iv.endp)) ∧
    (20 : Nat) ≠ 0 ∧
    (handler (runOps [RegOp.ins 5 10 0]) ⟨0⟩
        ⟨ExCode.guardViolation, 99, 1, 20⟩ =
      ⟨Disposition.continueExecution, ⟨20⟩, [], [], true⟩ ∧
    ∀ r2 : FaultRecord, r2.code = ExCode.singleStep →
      handler (runOps [RegOp.ins 5 10 0]) ⟨20⟩ r2 =
        ⟨Disposition.continueExecution, ⟨0⟩, [], [(20, 1, true)], false⟩) :=
  ⟨by decide, rfl, by decide, by decide,
    C10_unwatched_guard_fault_consumed [RegOp.ins 5 10 0] ⟨0⟩
      ⟨ExCode.guardViolation, 99, 1, 20⟩ (by decide) rfl (by decide)
      (by decide)⟩
